import Mathlib

/-!
# A shallow embedding of the bibtex-tidy `tidy` pipeline

This file embeds the `tidy` function of the repository (normalization of
field values, duplicate detection and merging, multi-key stable sorting,
and serialization) as executable Lean definitions, and proves or refutes
the specified properties about them.

Modelling conventions:
* JavaScript strings are modelled by `List Char` / `String`; `localeCompare`
  is modelled by code-point lexicographic comparison (the `LinearOrder` on
  `String`), and `toLowerCase` / `toUpperCase` by per-character ASCII
  `Char.toLower` / `Char.toUpper`.
* The regex character class `\s` is modelled by the ASCII whitespace
  characters (space, tab, newline, carriage return, vertical tab, form feed).
* The external escape table (`unicode.tsv`) is an opaque mapping; it is a
  parameter `table : Char → Option String` (the source keys the map by the
  zero-padded hex code of the character, which is a bijective encoding of
  the character itself).
* JavaScript `Map`s are modelled by insertion-ordered association lists
  with `Map.set` semantics (update in place if the key exists, else append).
* `Array.prototype.sort`, which ECMAScript requires to be stable, is
  modelled by `List.insertionSort` (which is stable) on items pre-paired
  with their computed sort indexes (pairing replaces the object-identity
  keyed `sortIndexes` map of the source).
-/

namespace BibTidy

/-- The four duplicate-detection criteria (`UniqueKey` in the source). -/
inductive UniqueKey where
  | doi
  | key
  | abstract
  | citation
deriving DecidableEq, Repr

/-- Merge strategies (`MergeStrategy` in the source). -/
inductive MergeStrategy where
  | first
  | last
  | combine
  | overwrite
deriving DecidableEq, Repr

/-- Value kinds attached to a field by the external parser
(`datatype` in the source: `braced`, `quoted`, `number`, `identifier`,
`concatinate`). Modelled as the literal strings the source compares with. -/
abbrev Datatype := String

/-- A raw field of an entry as delivered by the external parser:
name, stringified value, raw source text and value kind. -/
structure Field where
  name : String
  value : String
  raw : String
  datatype : Datatype
deriving DecidableEq, Repr

/-- A normalized field value (`ValueString` in the source). -/
structure ValueString where
  value : String
  datatype : Datatype
deriving DecidableEq, Repr

/-- An entry (`BibTeXEntry`): optional key, type, raw ordered fields,
the normalized field map (`none` before normalization or after the
serializer deletes it) and the dropped-as-duplicate flag. -/
structure Entry where
  key : Option String
  type : String
  fields : List Field
  fieldMap : Option (List (String × ValueString))
  duplicate : Bool
deriving DecidableEq, Repr

/-- A parsed item (`BibTeXItem`): string definition, preamble, comment
or entry. -/
inductive BibItem where
  | strdef (name raw : String)
  | preamble (raw : String)
  | comment (text : String)
  | entry (e : Entry)
deriving DecidableEq, Repr

/-- The resolved options record (the `Options` argument of `tidy` after the
destructuring defaults and the `=== true` normalizations of lines 218-223
of the source have been applied): `sort`/`merge`/`sortFields` are `none`
when disabled, `align` is already `1` when alignment was disabled. -/
structure Config where
  omitFields : List String := []
  curly : Bool := false
  numeric : Bool := false
  tab : Bool := false
  align : Nat := 14
  sort : Option (List String) := none
  merge : Option (List UniqueKey) := none
  stripEnclosingBraces : Bool := false
  dropAllCaps : Bool := false
  escape : Bool := true
  sortFields : Option (List String) := none
  stripComments : Bool := false
  encodeUrls : Bool := false
  tidyComments : Bool := true
  space : Nat := 2
  mergeStrategy : MergeStrategy := .combine
deriving Repr

/-! ## Character-level utilities -/

/-- JavaScript regex `\s` (restricted to ASCII): space, tab, newline,
vertical tab, form feed, carriage return. -/
def isJsWs (c : Char) : Bool :=
  c = ' ' || c = '\t' || c = '\n' || c = '\x0b' || c = '\x0c' || c = '\r'

/-- ASCII lower-casing of a string, modelling `toLowerCase` /
`toLocaleLowerCase`. -/
def lowerStr (s : String) : String :=
  String.mk (s.data.map Char.toLower)

/-- ASCII upper-casing of a string, modelling `toLocaleUpperCase`. -/
def upperStr (s : String) : String :=
  String.mk (s.data.map Char.toUpper)

/-- Model of `str.trim()` on a character list: drop `\s` characters from both ends. -/
def jsTrimList (l : List Char) : List Char :=
  ((l.dropWhile isJsWs).reverse.dropWhile isJsWs).reverse

/-- Model of `str.trim()`. -/
def jsTrim (s : String) : String :=
  String.mk (jsTrimList s.data)

/-- Emit a finished whitespace run: a run that contained a newline
collapses to one space, any other run stays unchanged. -/
def flushRun (pending : List Char) (sawNl : Bool) : List Char :=
  if pending = [] then [] else if sawNl then [' '] else pending

/-- The state machine behind `str.replace(/\s*\n\s*/g, ' ')`: `pending`
accumulates the current maximal whitespace run and `sawNl` records whether
it contains a newline. The greedy pattern matches exactly the maximal
whitespace runs containing at least one newline, each replaced by a single
space; runs without a newline are not matched and stay unchanged. -/
def collapseNlGo (pending : List Char) (sawNl : Bool) : List Char → List Char
  | [] => flushRun pending sawNl
  | c :: rest =>
    if isJsWs c then collapseNlGo (pending ++ [c]) (sawNl || c = '\n') rest
    else flushRun pending sawNl ++ c :: collapseNlGo [] false rest

/-- Model of `str.replace(/\s*\n\s*/g, ' ')`. -/
def collapseNlRuns (l : List Char) : List Char :=
  collapseNlGo [] false l

/-- Model of `escapeSpecialCharacters` (lines 157-176): walk the string; after a
backslash, `escapeMode` makes the next character pass through verbatim;
a backslash sets `escapeMode`; any other character is looked up in the
escape table (`specialCharacters.get(c) || str[i]`: a missing or empty
table result keeps the character). -/
def escapeGo (table : Char → Option String) : Bool → List Char → List Char
  | _, [] => []
  | true, c :: rest => c :: escapeGo table false rest
  | false, c :: rest =>
    if c = '\\' then c :: escapeGo table true rest
    else
      (match table c with
        | some e => if e = "" then [c] else e.data
        | none => [c]) ++ escapeGo table false rest

/-- Model of `escapeSpecialCharacters(str)`, parameterized by the opaque escape
table. -/
def escapeSpecialCharacters (table : Char → Option String) (s : String) : String :=
  String.mk (escapeGo table false s.data)

/-- JavaScript `\w`: ASCII letters, digits and underscore. -/
def isWordChar (c : Char) : Bool :=
  c.isAlpha || c.isDigit || c = '_'

/-- Model of `titleCase` (lines 178-182): `str.replace(/(\w)(\S*)/g, ...)` -- each
match starts at a word character, greedily takes the following non-space
run, uppercases the first character and lowercases the rest. The state
`inWord` is true while inside the `\S*` tail of a match. -/
def titleCaseGo (inWord : Bool) : List Char → List Char
  | [] => []
  | c :: rest =>
    if inWord then
      if isJsWs c then c :: titleCaseGo false rest
      else c.toLower :: titleCaseGo true rest
    else
      if isWordChar c then c.toUpper :: titleCaseGo true rest
      else c :: titleCaseGo false rest

/-- Model of `titleCase(str)`. -/
def titleCase (s : String) : String :=
  String.mk (titleCaseGo false s.data)

/-- Model of `alphaNum` (lines 185-190): remove all characters outside `[0-9A-Za-z]`
and lowercase the rest. -/
def alphaNum (s : String) : String :=
  String.mk ((s.data.filter Char.isAlphanum).map Char.toLower)

/-- Model of `val.replace(/^\{([^{}]*)\}$/g, '$1')`: when the whole value is a brace
pair whose inside has no braces, drop the outer pair. -/
def stripDoubleBraces (l : List Char) : List Char :=
  match l with
  | c :: rest =>
    if c = '\x7b' && rest ≠ [] && rest.getLast? = some '\x7d'
        && rest.dropLast.all (fun d => d ≠ '\x7b' && d ≠ '\x7d') then
      rest.dropLast
    else l
  | [] => l

/-- Model of `val.replace(/\\?_/g, '\\%5F')`: every underscore, together with an
immediately preceding backslash if present, becomes `\%5F`. -/
def encodeUrlUnderscores : List Char → List Char
  | [] => []
  | '\\' :: '_' :: rest => '\\' :: '%' :: '5' :: 'F' :: encodeUrlUnderscores rest
  | '_' :: rest => '\\' :: '%' :: '5' :: 'F' :: encodeUrlUnderscores rest
  | c :: rest => c :: encodeUrlUnderscores rest

/-- Try to match `\s*-\s*(\d)` at the head of the list; on success return
the matched digit and the remainder after it. -/
def matchDashDigit (l : List Char) : Option (Char × List Char) :=
  match l.dropWhile isJsWs with
  | c1 :: r2 =>
    if c1 = '-' then
      match r2.dropWhile isJsWs with
      | d :: r4 => if d.isDigit then some (d, r4) else none
      | [] => none
    else none
  | [] => none

/-- Model of `val.replace(/(\d)\s*-\s*(\d)/g, '$1--$2')` for `pages` fields, with
explicit fuel (each step consumes at least one character, so any fuel of
at least the list length computes the replacement): a digit, optional
whitespace, a dash, optional whitespace, a digit becomes `digit--digit`;
scanning resumes after the second digit. -/
def pagesGo : Nat → List Char → List Char
  | 0, l => l
  | _ + 1, [] => []
  | f + 1, c :: rest =>
    if c.isDigit then
      match matchDashDigit rest with
      | some (d2, rest') => c :: '-' :: '-' :: d2 :: pagesGo f rest'
      | none => c :: pagesGo f rest
    else c :: pagesGo f rest

/-- Model of `val.replace(/(\d)\s*-\s*(\d)/g, '$1--$2')`. -/
def pagesDoubleDash (l : List Char) : List Char :=
  pagesGo l.length l

/-- Model of `String(field.value).replace(/\s*\n\s*/g, ' ').trim()` (lines 272-274),
the whitespace-normalization step applied to every non-concatenated field
value before any other normalization step. -/
def normalizeWhitespace (s : String) : String :=
  jsTrim (String.mk (collapseNlRuns s.data))

/-! ## Association-list model of JavaScript `Map` -/

/-- Model of `map.has(k)`. -/
def hasKey {κ β : Type} [BEq κ] (k : κ) (m : List (κ × β)) : Bool :=
  m.any (fun kv => kv.1 == k)

/-- Model of `map.get(k)`. -/
def getKey {κ β : Type} [BEq κ] (k : κ) (m : List (κ × β)) : Option β :=
  (m.find? (fun kv => kv.1 == k)).map (·.2)

/-- Model of `map.set(k, v)`: update in place when the key exists (keeping its
position), otherwise append. -/
def setKey {κ β : Type} [BEq κ] (k : κ) (v : β) (m : List (κ × β)) : List (κ × β) :=
  if hasKey k m then m.map (fun kv => if kv.1 == k then (k, v) else kv)
  else m ++ [(k, v)]

/-! ## Field normalization (lines 263-290) -/

/-- Model of `val.match(/^[^a-z]+$/)`: nonempty and without ASCII lowercase
letters. -/
def noLowercase (s : String) : Bool :=
  !s.data.isEmpty && s.data.all (fun c => !('a' ≤ c && c ≤ 'z'))

/-- Normalize one field's value (the body of the loop at lines 268-285):
concatenated values pass through raw; otherwise collapse
newline-containing whitespace runs and trim, then apply the optional
brace-stripping, all-caps title-casing, URL-underscore encoding, special
character escaping and page-range steps in source order. -/
def normalizeFieldValue (cfg : Config) (table : Char → Option String)
    (lname : String) (f : Field) : String :=
  if f.datatype = "concatinate" then f.raw
  else
    let v := normalizeWhitespace f.value
    let v := if cfg.stripEnclosingBraces then String.mk (stripDoubleBraces v.data) else v
    let v := if cfg.dropAllCaps && noLowercase v then titleCase v else v
    let v := if lname = "url" && cfg.encodeUrls then String.mk (encodeUrlUnderscores v.data) else v
    let v := if cfg.escape then escapeSpecialCharacters table v else v
    if lname = "pages" then String.mk (pagesDoubleDash v.data) else v

/-- Build an entry's `fieldMap` (lines 264-290): iterate the raw fields in
order; lowercase the name; skip omitted names and names already present
(first occurrence wins); store the normalized, re-trimmed value with the
original datatype. -/
def buildFieldMap (cfg : Config) (table : Char → Option String)
    (fields : List Field) : List (String × ValueString) :=
  fields.foldl
    (fun m f =>
      let lname := lowerStr f.name
      if cfg.omitFields.contains lname || hasKey lname m then m
      else m ++ [(lname, ⟨jsTrim (normalizeFieldValue cfg table lname f), f.datatype⟩)])
    []

/-- Populate an entry's `fieldMap`. -/
def normalizeEntry (cfg : Config) (table : Char → Option String) (e : Entry) : Entry :=
  { e with fieldMap := some (buildFieldMap cfg table e.fields) }

/-! ## Duplicate detection (lines 225-235 and 292-356) -/

/-- Build the `uniqCheck` map (lines 225-235): the requested merge criteria
are inserted first, each mapped to `true`, in their configured order; then
`key` is appended with `false` unless already present. -/
def buildUniqCheck (merge : Option (List UniqueKey)) : List (UniqueKey × Bool) :=
  let m := (merge.getD []).foldl (fun acc k => setKey k true acc) []
  if hasKey UniqueKey.key m then m else m ++ [(UniqueKey.key, false)]

/-- The entry's field map, `[]` when absent (`item.fieldMap?` accesses). -/
def fieldMapOf (e : Entry) : List (String × ValueString) :=
  e.fieldMap.getD []

/-- Model of `aut.split(/,| and/)[0]`: the prefix of the author string up to the
first `,` or ` and`. -/
def firstAuthorToken : List Char → List Char
  | [] => []
  | ',' :: _ => []
  | ' ' :: 'a' :: 'n' :: 'd' :: _ => []
  | c :: rest => c :: firstAuthorToken rest

/-- The normalized signature an entry produces for one duplicate criterion
(lines 294-324); `none` when the criterion is skipped for this entry. -/
def sigFor (k : UniqueKey) (e : Entry) : Option String :=
  match k with
  | .key =>
    match e.key with
    | none => none
    | some s => if s = "" then none else some s
  | .doi =>
    match getKey "doi" (fieldMapOf e) with
    | none => none
    | some vs => let d := alphaNum vs.value; if d = "" then none else some d
  | .citation =>
    match getKey "title" (fieldMapOf e), getKey "author" (fieldMapOf e) with
    | some ttl, some aut =>
      if ttl.value = "" || aut.value = "" then none
      else some (alphaNum (String.mk (firstAuthorToken aut.value.data)) ++ ":"
        ++ String.mk ((alphaNum ttl.value).data.take 50))
    | _, _ => none
  | .abstract =>
    match getKey "abstract" (fieldMapOf e) with
    | none => none
    | some vs =>
      let a := String.mk ((alphaNum vs.value).data.take 100)
      if a = "" then none else some a

/-- The per-criterion signature maps (`keys`, `dois`, `citations`,
`abstracts`), mapping a signature to the index of the first item that
produced it. -/
structure DupState where
  keys : List (String × Nat) := []
  dois : List (String × Nat) := []
  citations : List (String × Nat) := []
  abstracts : List (String × Nat) := []

/-- The map owned by a criterion. -/
def DupState.mapFor (st : DupState) : UniqueKey → List (String × Nat)
  | .key => st.keys
  | .doi => st.dois
  | .citation => st.citations
  | .abstract => st.abstracts

/-- Replace the map owned by a criterion. -/
def DupState.withMap (st : DupState) : UniqueKey → List (String × Nat) → DupState
  | .key, m => { st with keys := m }
  | .doi, m => { st with dois := m }
  | .citation, m => { st with citations := m }
  | .abstract, m => { st with abstracts := m }

/-- The criteria loop for one entry (lines 292-324 up to the `duplicateOf`
decision): iterate the `uniqCheck` criteria in order; a criterion with no
signature is skipped; on a missing signature match the entry is registered
as that criterion's representative and iteration continues; on a match
iteration stops and the matched index with the criterion's merge flag is
returned. -/
def checkCriteria (st : DupState) (i : Nat) (e : Entry) :
    List (UniqueKey × Bool) → DupState × Option (Nat × Bool)
  | [] => (st, none)
  | (k, mergeFlag) :: rest =>
    match sigFor k e with
    | none => checkCriteria st i e rest
    | some sig =>
      match getKey sig (st.mapFor k) with
      | some j => (st, some (j, mergeFlag))
      | none => checkCriteria (st.withMap k (setKey sig i (st.mapFor k))) i e rest

/-- The merge resolver (lines 334-346): `last` replaces the kept entry's
raw field list; `combine` copies absent normalized fields in; `overwrite`
copies every normalized field in; `first` changes nothing. -/
def applyMergeStrategy (strat : MergeStrategy) (kept absorbed : Entry) : Entry :=
  match strat with
  | .last => { kept with fields := absorbed.fields }
  | .combine =>
    { kept with fieldMap := some ((fieldMapOf absorbed).foldl
        (fun m kv => if hasKey kv.1 m then m else m ++ [kv]) (fieldMapOf kept)) }
  | .overwrite =>
    { kept with fieldMap := some ((fieldMapOf absorbed).foldl
        (fun m kv => setKey kv.1 kv.2 m) (fieldMapOf kept)) }
  | .first => kept

/-- Replace the element at an index (mutation of `duplicateOf` through the
shared item list). -/
def modifyIdx {α : Type} (i : Nat) (f : α → α) : List α → List α
  | [] => []
  | x :: xs =>
    match i with
    | 0 => f x :: xs
    | i + 1 => x :: modifyIdx i f xs

/-- Apply the merge mutation to the item at index `j` (the `duplicateOf`
entry). -/
def mergeAt (strat : MergeStrategy) (j : Nat) (absorbed : Entry)
    (items : List BibItem) : List BibItem :=
  modifyIdx j
    (fun it =>
      match it with
      | .entry kept => .entry (applyMergeStrategy strat kept absorbed)
      | other => other)
    items

/-- The normalization-and-duplicates pass (lines 253-356) over the item
list: non-entries pass through; each entry gets its `fieldMap` built, then
runs the criteria loop; on a merge-enabled match the entry is flagged as a
duplicate and merged into the matched item; warning emission is not
modelled (warnings do not feed back into the pipeline). -/
def dupPassGo (cfg : Config) (table : Char → Option String)
    (uniq : List (UniqueKey × Bool)) :
    DupState → List BibItem → List BibItem → List BibItem
  | _, acc, [] => acc
  | st, acc, it :: rest =>
    match it with
    | .entry e =>
      let e' := normalizeEntry cfg table e
      match checkCriteria st acc.length e' uniq with
      | (st', none) => dupPassGo cfg table uniq st' (acc ++ [.entry e']) rest
      | (st', some (j, mergeFlag)) =>
        if mergeFlag then
          let acc' := mergeAt cfg.mergeStrategy j e' acc
          dupPassGo cfg table uniq st' (acc' ++ [.entry { e' with duplicate := true }]) rest
        else
          dupPassGo cfg table uniq st' (acc ++ [.entry e']) rest
    | other => dupPassGo cfg table uniq st (acc ++ [other]) rest

/-- The full normalization-and-duplicates pass. -/
def dupPass (cfg : Config) (table : Char → Option String)
    (items : List BibItem) : List BibItem :=
  dupPassGo cfg table (buildUniqCheck cfg.merge) {} [] items

/-! ## Sort planner (lines 358-402) -/

/-- A sort index: stripped sort key name to lowercased value. -/
abbrev SortIndex := List (String × String)

/-- Model of `key.startsWith('-')`. -/
def startsWithDash (k : String) : Bool :=
  k.data.head? = some '-'

/-- Strip the descending-marker dash (`key.slice(1)`). -/
def stripDash (k : String) : String :=
  if startsWithDash k then String.mk k.data.tail else k

/-- The value an entry contributes for one (already stripped) sort key
(lines 374-381): `key` and `type` read the entry directly (an absent key
gives `''`), any other name reads the normalized field value, an absent
field giving `''`. -/
def sortValOf (k : String) (e : Entry) : String :=
  if k = "key" then e.key.getD ""
  else if k = "type" then e.type
  else ((getKey k (fieldMapOf e)).map (·.value)).getD ""

/-- Build an entry's sort index (lines 370-383): every configured key is
set, to the lowercased value. -/
def mkSortIndex (keys : List String) (e : Entry) : SortIndex :=
  keys.foldl
    (fun idx k0 => let k := stripDash k0; setKey k (lowerStr (sortValOf k e)) idx)
    []

/-- The sort index a run of non-entry items is given: that of the next
entry in the list, none if there is no later entry (lines 364-389:
`preceedingMeta` is popped when the next entry is reached). -/
def nextEntryIndex (keys : List String) : List BibItem → Option SortIndex
  | [] => none
  | .entry e :: _ => some (mkSortIndex keys e)
  | _ :: rest => nextEntryIndex keys rest

/-- Pair each item with its sort index: entries with their own, non-entry
items with the following entry's, trailing non-entry items with none.
(This pairing replaces the object-identity keyed `sortIndexes` map.) -/
def attachIndexes (keys : List String) : List BibItem → List (BibItem × Option SortIndex)
  | [] => []
  | it :: rest =>
    (it,
      match it with
      | .entry e => some (mkSortIndex keys e)
      | _ => nextEntryIndex keys rest) :: attachIndexes keys rest

/-- Model of `sortIndexes.get(a)?.get(key) ?? '￰'` (line 397): the sentinel is
used only when the item has no sort index at all. -/
def sortKeyVal (k : String) (p : BibItem × Option SortIndex) : String :=
  (p.2.bind (getKey k)).getD "￰"

/-- Code-point lexicographic comparison of character lists (the model of
`localeCompare(...) ≤ 0`). -/
def listLeB : List Char → List Char → Bool
  | [], _ => true
  | _ :: _, [] => false
  | a :: as, b :: bs =>
    if a.toNat < b.toNat then true
    else if b.toNat < a.toNat then false
    else listLeB as bs

/-- Model of `a.localeCompare(b) ≤ 0` as code-point lexicographic
string comparison. -/
def strLe (a b : String) : Bool :=
  listLeB a.data b.data

/-- The comparator of one sort pass (lines 393-399) as a non-strict
relation: `a` may stay before `b` iff the comparator returns `≤ 0`. A
descending key compares the values in the reversed order. -/
def keyRel (k0 : String) (a b : BibItem × Option SortIndex) : Prop :=
  if startsWithDash k0 then
    strLe (sortKeyVal (String.mk k0.data.tail) b) (sortKeyVal (String.mk k0.data.tail) a) = true
  else
    strLe (sortKeyVal k0 a) (sortKeyVal k0 b) = true

instance keyRelDecidable (k0 : String) : DecidableRel (keyRel k0) := fun a b => by
  unfold keyRel
  split <;> infer_instance

/-- The sort pass (lines 391-401): one stable sort per key, from the last
configured key to the first, each modelled by the stable
`List.insertionSort`. -/
def sortPass (keys : List String) (items : List BibItem) : List BibItem :=
  (keys.foldr (fun k acc => List.insertionSort (keyRel k) acc)
    (attachIndexes keys items)).map (·.1)

/-- The lexicographic combination of two non-strict comparators: `a` may
stay before `b` when it is strictly smaller under the first, or tied under
the first and allowed before under the second. -/
def lexComb {α : Type} (r₁ r₂ : α → α → Prop) (a b : α) : Prop :=
  (r₁ a b ∧ ¬ r₁ b a) ∨ (r₁ a b ∧ r₁ b a ∧ r₂ a b)

instance lexCombDecidable {α : Type} (r₁ r₂ : α → α → Prop)
    [DecidableRel r₁] [DecidableRel r₂] : DecidableRel (lexComb r₁ r₂) := fun a b => by
  unfold lexComb; infer_instance

/-- Modelled from the spec: the single composite comparator "built from
the same n keys in the same priority order" — a lexicographic combination
that orders by the first key and breaks ties with the remaining keys. -/
def compositeRel : List String → (BibItem × Option SortIndex) → (BibItem × Option SortIndex) → Prop
  | [] => fun _ _ => True
  | k :: ks => lexComb (keyRel k) (compositeRel ks)

instance compositeRelDecidable : (keys : List String) → DecidableRel (compositeRel keys)
  | [] => fun _ _ => .isTrue trivial
  | k :: ks =>
    @lexCombDecidable _ (keyRel k) (compositeRel ks) (keyRelDecidable k)
      (compositeRelDecidable ks)

/-- Modelled from the spec: a single stable sort by the composite
comparator. -/
def compositeSortPass (keys : List String) (items : List BibItem) : List BibItem :=
  (List.insertionSort (compositeRel keys) (attachIndexes keys items)).map (·.1)

/-! ## Serializer (lines 404-468) -/

/-- Model of `'jan'..'dec'` (the `MONTHS` set). -/
def MONTHS : List String :=
  ["jan", "feb", "mar", "apr", "may", "jun", "jul", "aug", "sep", "oct", "nov", "dec"]

/-- Model of `String.prototype.padEnd`. -/
def padEnd (s : String) (n : Nat) : String :=
  s ++ String.mk (List.replicate (n - s.length) ' ')

/-- The field indentation (line 224). -/
def indentOf (cfg : Config) : String :=
  if cfg.tab then "\t" else String.mk (List.replicate cfg.space ' ')

/-- Model of `val.match(/^[1-9][0-9]*$/)`: a nonzero digit followed by digits. -/
def matchPositiveInt (s : String) : Bool :=
  match s.data with
  | [] => false
  | c :: cs => ('1' ≤ c && c ≤ '9') && cs.all Char.isDigit

/-- Render one field value (lines 444-456), checked in source order:
bare positive integer when numeric; three-letter month when numeric; braces
when the datatype is braced or curly is forced; quotes when quoted; bare
otherwise. -/
def renderValue (cfg : Config) (k : String) (vs : ValueString) : String :=
  let val := vs.value
  let dig3 := lowerStr (String.mk (val.data.take 3))
  if cfg.numeric && matchPositiveInt val then val
  else if cfg.numeric && k = "month" && MONTHS.contains dig3 then dig3
  else if vs.datatype = "braced" || cfg.curly then "\x7b" ++ val ++ "\x7d"
  else if vs.datatype = "quoted" then "\"" ++ val ++ "\""
  else val

/-- Model of `Set` insertion-order deduplication (line 436). -/
def dedupKeepFirst {α : Type} [BEq α] (seen : List α) : List α → List α
  | [] => []
  | x :: xs =>
    if seen.contains x then dedupKeepFirst seen xs
    else x :: dedupKeepFirst (seen ++ [x]) xs

/-- Render one non-dropped entry (lines 431-458): type lowercased, key,
then each field of the union of the configured field order and the field
map's keys, padded to the alignment column. -/
def renderEntry (cfg : Config) (e : Entry) : String :=
  let names := dedupKeepFirst [] ((cfg.sortFields.getD []) ++ (fieldMapOf e).map (·.1))
  "@" ++ lowerStr e.type ++ "\x7b" ++ (e.key.getD "")
    ++ String.join (names.map (fun k =>
      match getKey k (fieldMapOf e) with
      | none => ""
      | some vs =>
        ",\n" ++ indentOf cfg ++ padEnd k (cfg.align - 1) ++ " = " ++ renderValue cfg k vs))
    ++ "\n\x7d\n"

/-- Model of `comment.replace(/^[ \t]*\n|[ \t]*$/g, '')` (line 425): remove a
leading space/tab run followed by a newline (all or nothing, at the very
start), and a trailing space/tab run. -/
def stripCommentEdges (l : List Char) : List Char :=
  let isSpTab : Char → Bool := fun c => c = ' ' || c = '\t'
  let l1 :=
    match l.dropWhile isSpTab with
    | '\n' :: rest => rest
    | _ => l
  (l1.reverse.dropWhile isSpTab).reverse

/-- Render one comment item (lines 418-427). -/
def renderComment (cfg : Config) (text : String) : String :=
  if cfg.stripComments then ""
  else if cfg.tidyComments then
    (if jsTrim text ≠ "" then jsTrim text ++ "\n" else "")
  else String.mk (stripCommentEdges text.data)

/-- The serializer (lines 404-462): render each item in order; dropped
duplicates contribute nothing and are left untouched; emitted entries have
their `fieldMap` deleted (line 459). Returns the text and the item list
after these deletions. -/
def serializeItems (cfg : Config) : List BibItem → String × List BibItem
  | [] => ("", [])
  | it :: rest =>
    let r := serializeItems cfg rest
    match it with
    | .strdef n raw => ("@string\x7b" ++ n ++ " = " ++ raw ++ "\x7d\n" ++ r.1, it :: r.2)
    | .preamble raw => ("@preamble\x7b" ++ raw ++ "\x7d\n" ++ r.1, it :: r.2)
    | .comment text => (renderComment cfg text ++ r.1, it :: r.2)
    | .entry e =>
      if e.duplicate then (r.1, it :: r.2)
      else (renderEntry cfg e ++ r.1, .entry { e with fieldMap := none } :: r.2)

/-- Whether an item is an entry. -/
def isEntry : BibItem → Bool
  | .entry _ => true
  | _ => false

/-- Whether an item is an entry flagged as a dropped duplicate. -/
def isDroppedDuplicate : BibItem → Bool
  | .entry e => e.duplicate
  | _ => false

/-- The pipeline after parsing (lines 218-470): resolve nothing (the
`Config` is already resolved), run the normalization-and-duplicates pass,
the sort pass when sorting is enabled, serialize, and add a final newline
when the text does not end with one. Returns the text and the entry list
(every entry, dropped duplicates included). -/
def tidyItems (cfg : Config) (table : Char → Option String)
    (items : List BibItem) : String × List BibItem :=
  let items1 := dupPass cfg table items
  let items2 :=
    match cfg.sort with
    | some keys => sortPass keys items1
    | none => items1
  let r := serializeItems cfg items2
  let bib := if r.1.data.getLast? = some '\n' then r.1 else r.1 ++ "\n"
  (bib, r.2.filter isEntry)

/-! ## The external parser, modelled from the spec

`tidy` consumes `parser.parse(input)` from the external `bibtex-parse`
collaborator, which is not part of this repository. The definitions below
are *modelled from the spec*: §3 ("Item — a tagged union ... Entry { key,
type, fields: ordered sequence of (name, rawValue, valueKind) }") and §6
("Consumed from the parsing collaborator: a list of items as defined in
§3, with raw field order, raw value strings, and a value-kind tag per
field, plus entry key and type strings"), restricted to the canonical
concrete syntax that the serializer of §4.6 emits: `@type{key` followed by
`,\n<indent><name> = <value>` fields with braced, quoted or bare values and
a closing `}` — free text between entries becomes comment items. String
definitions and preambles are not modelled. -/

/-- Take characters until (excluding) the first occurrence of a stop
character; returns the taken characters and the rest (stop included). -/
def scanUntil (stops : List Char) : List Char → (List Char × List Char)
  | [] => ([], [])
  | c :: rest =>
    if stops.contains c then ([], c :: rest)
    else
      let r := scanUntil stops rest
      (c :: r.1, r.2)

/-- Take the content of a brace-balanced group, assuming the opening brace
has been consumed; returns the inner text and the rest after the matching
closing brace. -/
def takeBraced : Nat → Nat → List Char → (List Char × List Char)
  | 0, _, l => ([], l)
  | _ + 1, _, [] => ([], [])
  | f + 1, depth, c :: rest =>
    if c = '\x7b' then
      let r := takeBraced f (depth + 1) rest
      (c :: r.1, r.2)
    else if c = '\x7d' then
      if depth = 0 then ([], rest)
      else
        let r := takeBraced f (depth - 1) rest
        (c :: r.1, r.2)
    else
      let r := takeBraced f depth rest
      (c :: r.1, r.2)

/-- Parse the field list of an entry, after the comma following the key;
returns the fields and the rest after the entry's closing brace. -/
def parseFields : Nat → List Char → (List Field × List Char)
  | 0, l => ([], l)
  | f + 1, l =>
    match l.dropWhile isJsWs with
    | [] => ([], [])
    | '\x7d' :: rest => ([], rest)
    | ',' :: rest => parseFields f rest
    | l1 =>
      let n := scanUntil ['='] l1
      match n.2 with
      | '=' :: l2 =>
        let name := String.mk (jsTrimList n.1)
        match l2.dropWhile isJsWs with
        | '\x7b' :: r =>
          let v := takeBraced r.length 0 r
          let rest := parseFields f v.2
          (⟨name, String.mk v.1, "\x7b" ++ String.mk v.1 ++ "\x7d", "braced"⟩ :: rest.1, rest.2)
        | '"' :: r =>
          let v := scanUntil ['"'] r
          let rest := parseFields f (v.2.drop 1)
          (⟨name, String.mk v.1, "\"" ++ String.mk v.1 ++ "\"", "quoted"⟩ :: rest.1, rest.2)
        | l3 =>
          let v := scanUntil [',', '\x7d'] l3
          let tok := String.mk (jsTrimList v.1)
          let dt := if tok ≠ "" && tok.data.all Char.isDigit then "number" else "identifier"
          let rest := parseFields f v.2
          (⟨name, tok, tok, dt⟩ :: rest.1, rest.2)
      | _ => ([], [])

/-- Parse a whole document into items: free text up to an `@` becomes a
comment item, an `@` begins an entry. -/
def parseItemsGo : Nat → List Char → List Char → List BibItem
  | 0, commentAcc, _ =>
    if commentAcc ≠ [] then [.comment (String.mk commentAcc)] else []
  | _ + 1, commentAcc, [] =>
    if commentAcc ≠ [] then [.comment (String.mk commentAcc)] else []
  | f + 1, commentAcc, '@' :: rest =>
    let flushed : List BibItem :=
      if commentAcc ≠ [] then [.comment (String.mk commentAcc)] else []
    let t := scanUntil ['\x7b'] rest
    match t.2 with
    | '\x7b' :: l2 =>
      let k := scanUntil [',', '\x7d'] l2
      let key := if k.1 = [] then none else some (String.mk k.1)
      match k.2 with
      | ',' :: l4 =>
        let fs := parseFields f l4
        flushed ++ .entry ⟨key, String.mk t.1, fs.1, none, false⟩ :: parseItemsGo f [] fs.2
      | '\x7d' :: l4 =>
        flushed ++ .entry ⟨key, String.mk t.1, [], none, false⟩ :: parseItemsGo f [] l4
      | _ => flushed ++ [.entry ⟨key, String.mk t.1, [], none, false⟩]
    | _ => flushed ++ [.comment ("@" ++ String.mk t.1)]
  | f + 1, commentAcc, c :: rest => parseItemsGo f (commentAcc ++ [c]) rest

/-- Model of `parser.parse(input)` on the canonical subset. -/
def parseBib (input : String) : List BibItem :=
  parseItemsGo (input.length + 1) [] input.data

/-- The whole `tidy` function on text: parse, run the pipeline, serialize. -/
def tidy (cfg : Config) (table : Char → Option String) (input : String) :
    String × List BibItem :=
  tidyItems cfg table (parseBib input)

/-! ## Auxiliary definitions used by the statements below -/

/-- The closed form of `buildUniqCheck` on an explicit criteria list: the
requested criteria, deduplicated keeping first occurrences, each marked
merge-enabled, with `key` appended as warn-only unless it was requested. -/
def uniqCheckSpec (ml : List UniqueKey) : List (UniqueKey × Bool) :=
  (dedupKeepFirst [] ml).map (fun k => (k, true))
    ++ (if ml.contains .key then [] else [(UniqueKey.key, false)])

/-- What the serializer does to one item of its input list: an emitted
(non-duplicate) entry loses its `fieldMap`; every other item is returned
untouched. -/
def emitClear : BibItem → BibItem
  | .entry e => if e.duplicate then .entry e else .entry { e with fieldMap := none }
  | other => other

/-- The relation "an entry whose (lowercased) sort value for key `k` is
nonempty never precedes an entry whose sort value for `k` is empty". -/
def emptyValFirst (k : String) (a b : BibItem) : Prop :=
  ∀ ea eb : Entry, a = .entry ea → b = .entry eb →
    lowerStr (sortValOf k ea) = "" ∨ lowerStr (sortValOf k eb) ≠ ""

/-- The relation "an entry whose (lowercased) sort value for key `k` is
empty never precedes an entry whose sort value for `k` is nonempty". -/
def emptyValLast (k : String) (a b : BibItem) : Prop :=
  ∀ ea eb : Entry, a = .entry ea → b = .entry eb →
    lowerStr (sortValOf k ea) ≠ "" ∨ lowerStr (sortValOf k eb) = ""

/-- A sample escape table holding the two escapes of the spec's escaping
example (`&` and `#`). -/
def sampleEscapeTable : Char → Option String := fun c =>
  if c = '&' then some "\\&" else if c = '#' then some "\\#" else none

/-- An entry with a `year` field (duplicate-detection and sorting
fixtures). -/
def entWithYear : Entry :=
  { key := some "a", type := "m", fields := [],
    fieldMap := some [("year", ⟨"2000", "braced"⟩)], duplicate := false }

/-- An entry without a `year` field. -/
def entNoYear : Entry :=
  { key := some "b", type := "m", fields := [], fieldMap := some [],
    duplicate := false }

/-- An entry flagged as a dropped duplicate, with a populated field map. -/
def entDup : Entry :=
  { key := some "d", type := "m", fields := [],
    fieldMap := some [("title", ⟨"T", "braced"⟩)], duplicate := true }

/-- The configuration of the idempotence counterexample: merge on
`citation` then `doi` with the default `combine` strategy, escaping
disabled, everything else default. -/
def cfg9 : Config := { escape := false, merge := some [.citation, .doi] }

/-- An empty escape table (escaping is disabled in `cfg9`). -/
def noTable : Char → Option String := fun _ => none

/-- The idempotence counterexample input: entry `a` (title `t`, author
`x`), entry `c` (doi `d`), entry `b` (title `t`, author `x`, doi `d`). -/
def in9 : String :=
  "@m\x7ba,\n  title = \x7bt\x7d,\n  author = \x7bx\x7d\n\x7d\n"
    ++ "@m\x7bc,\n  doi = \x7bd\x7d\n\x7d\n"
    ++ "@m\x7bb,\n  title = \x7bt\x7d,\n  author = \x7bx\x7d,\n  doi = \x7bd\x7d\n\x7d\n"

/-! ## Association-list lemmas -/

theorem getKey_append_left {κ β : Type} [BEq κ] {k : κ} {m m' : List (κ × β)} {v : β}
    (h : getKey k m = some v) : getKey k (m ++ m') = some v := by
  induction m with
  | nil => simp [getKey] at h
  | cons kv rest ih =>
    unfold getKey at h ⊢
    by_cases hk : kv.1 == k
    · simpa [List.find?, hk] using by simpa [List.find?, hk] using h
    · simp only [List.cons_append, List.find?, hk] at h ⊢
      exact ih h

theorem getKey_of_hasKey_false {κ β : Type} [BEq κ] {k : κ} {m : List (κ × β)}
    (h : hasKey k m = false) : getKey k m = none := by
  induction m with
  | nil => simp [getKey]
  | cons kv rest ih =>
    unfold hasKey at h ih
    simp only [List.any_cons, Bool.or_eq_false_iff] at h
    unfold getKey at ih ⊢
    simp only [List.find?, h.1]
    exact ih h.2

theorem getKey_append_of_hasKey_false {κ β : Type} [BEq κ] {k : κ} {m m' : List (κ × β)}
    (h : hasKey k m = false) : getKey k (m ++ m') = getKey k m' := by
  induction m with
  | nil => simp
  | cons kv rest ih =>
    unfold hasKey at h ih
    simp only [List.any_cons, Bool.or_eq_false_iff] at h
    unfold getKey at ih ⊢
    simp only [List.cons_append, List.find?, h.1]
    exact ih h.2

theorem hasKey_of_getKey_some {κ β : Type} [BEq κ] {k : κ} {m : List (κ × β)} {v : β}
    (h : getKey k m = some v) : hasKey k m = true := by
  by_cases hh : hasKey k m = true
  · exact hh
  · rw [getKey_of_hasKey_false (by simpa using hh)] at h; cases h

theorem getKey_some_of_hasKey {κ β : Type} [BEq κ] {k : κ} {m : List (κ × β)}
    (h : hasKey k m = true) : ∃ v, getKey k m = some v := by
  induction m with
  | nil => simp [hasKey] at h
  | cons kv rest ih =>
    by_cases hk : (kv.1 == k) = true
    · exact ⟨kv.2, by simp [getKey, List.find?, hk]⟩
    · have h' : hasKey k rest = true := by
        simpa [hasKey, hk] using h
      rcases ih h' with ⟨v, hv⟩
      refine ⟨v, ?_⟩
      unfold getKey at hv ⊢
      simpa [List.find?, hk] using hv

theorem getKey_mapSet {κ β : Type} [BEq κ] [LawfulBEq κ] {k : κ} {v : β}
    {m : List (κ × β)} (h : hasKey k m = true) :
    getKey k (m.map (fun kv => if kv.1 == k then (k, v) else kv)) = some v := by
  induction m with
  | nil => simp [hasKey] at h
  | cons kv rest ih =>
    by_cases hk : (kv.1 == k) = true
    · simp [getKey, List.find?, hk]
    · have h' : hasKey k rest = true := by
        simpa [hasKey, hk] using h
      have := ih h'
      unfold getKey at this ⊢
      simpa [List.find?, hk] using this

theorem getKey_mapSet_other {κ β : Type} [BEq κ] [LawfulBEq κ] {k k' : κ} {v : β}
    (m : List (κ × β)) (hne : (k' == k) = false) :
    getKey k' (m.map (fun kv => if kv.1 == k then (k, v) else kv)) = getKey k' m := by
  have hkk : (k == k') = false := by
    simp only [beq_eq_false_iff_ne, ne_eq] at hne ⊢
    exact fun hc => hne hc.symm
  induction m with
  | nil => simp
  | cons kv rest ih =>
    by_cases hk : (kv.1 == k) = true
    · have hv1 : (kv.1 == k') = false := by
        have : kv.1 = k := by simpa using hk
        rw [this]; exact hkk
      unfold getKey at ih ⊢
      simpa [List.find?, hk, hkk, hv1] using ih
    · unfold getKey at ih ⊢
      by_cases hkv : (kv.1 == k') = true
      · simp [List.find?, hk, hkv]
      · simpa [List.find?, hk, hkv] using ih

theorem getKey_setKey_self {κ β : Type} [BEq κ] [LawfulBEq κ] (k : κ) (v : β)
    (m : List (κ × β)) : getKey k (setKey k v m) = some v := by
  unfold setKey
  by_cases h : hasKey k m = true
  · rw [if_pos h]
    exact getKey_mapSet h
  · rw [if_neg h]
    rw [getKey_append_of_hasKey_false (by simpa using h)]
    simp [getKey, List.find?]

theorem getKey_setKey_other {κ β : Type} [BEq κ] [LawfulBEq κ] {k k' : κ} (v : β)
    (m : List (κ × β)) (hne : (k' == k) = false) :
    getKey k' (setKey k v m) = getKey k' m := by
  have hkk : (k == k') = false := by
    simp only [beq_eq_false_iff_ne, ne_eq] at hne ⊢
    exact fun hc => hne hc.symm
  unfold setKey
  by_cases h : hasKey k m = true
  · rw [if_pos h]
    exact getKey_mapSet_other m hne
  · rw [if_neg h]
    rcases ho : getKey k' m with _ | v'
    · rw [getKey_append_of_hasKey_false]
      · simp [getKey, List.find?, hkk]
      · by_cases h' : hasKey k' m = true
        · rcases getKey_some_of_hasKey h' with ⟨w, hw⟩
          rw [hw] at ho; cases ho
        · simpa using h'
    · exact getKey_append_left ho

/-! ## Serializer lemmas -/

theorem serializeItems_snd (cfg : Config) (items : List BibItem) :
    (serializeItems cfg items).2 = items.map emitClear := by
  induction items with
  | nil => rfl
  | cons it rest ih =>
    cases it with
    | strdef n raw => simp [serializeItems, emitClear, ih]
    | preamble raw => simp [serializeItems, emitClear, ih]
    | comment text => simp [serializeItems, emitClear, ih]
    | entry e =>
      by_cases hd : e.duplicate
      · simp [serializeItems, emitClear, hd, ih]
      · simp [serializeItems, emitClear, hd, ih]

theorem serializeItems_fst_filter (cfg : Config) (items : List BibItem) :
    (serializeItems cfg items).1
      = (serializeItems cfg (items.filter (fun it => !isDroppedDuplicate it))).1 := by
  induction items with
  | nil => rfl
  | cons it rest ih =>
    cases it with
    | strdef n raw => simp [serializeItems, isDroppedDuplicate, List.filter, ih]
    | preamble raw => simp [serializeItems, isDroppedDuplicate, List.filter, ih]
    | comment text => simp [serializeItems, isDroppedDuplicate, List.filter, ih]
    | entry e =>
      by_cases hd : e.duplicate
      · simp [serializeItems, isDroppedDuplicate, List.filter, hd, ih]
      · simp [serializeItems, isDroppedDuplicate, List.filter, hd, ih]

/-! ## The claims -/

/-- C5: for every configuration and item list, the serialized text is the
same as if the dropped-duplicate entries were absent (they contribute
nothing to the output), and every entry flagged as a dropped duplicate is
in the entry list that `tidy` returns (the serializer's item list filtered
to entries), with its flag still set. -/
theorem c5_dropped_duplicates (cfg : Config) (items : List BibItem) :
    ((serializeItems cfg items).1
        = (serializeItems cfg (items.filter (fun it => !isDroppedDuplicate it))).1)
      ∧ (∀ e : Entry, BibItem.entry e ∈ items → e.duplicate = true →
          BibItem.entry e ∈ (serializeItems cfg items).2.filter isEntry) := by
  refine ⟨serializeItems_fst_filter cfg items, fun e hmem hdup => ?_⟩
  rw [serializeItems_snd]
  refine List.mem_filter.mpr ⟨?_, by simp [isEntry]⟩
  have : emitClear (BibItem.entry e) = BibItem.entry e := by
    simp [emitClear, hdup]
  exact this ▸ List.mem_map_of_mem emitClear hmem

/-- C5 witness: a concrete dropped duplicate is absent from the text and
present, still flagged, in the filtered entry list. -/
theorem c5_dropped_duplicates_witness :
    BibItem.entry entDup ∈ (serializeItems {} [BibItem.entry entDup]).2.filter isEntry :=
  (c5_dropped_duplicates {} [BibItem.entry entDup]).2 entDup (by simp) (by decide)

/-- C10: the serializer returns the item list with the `fieldMap` deleted
exactly on the entries it emits: dropped duplicates (and non-entries) are
returned untouched, every other entry with `fieldMap := none`. -/
theorem c10_fieldMap_deletion (cfg : Config) (items : List BibItem) :
    ((serializeItems cfg items).2 = items.map emitClear)
      ∧ (∀ e : Entry, BibItem.entry e ∈ items → e.duplicate = true →
          BibItem.entry e ∈ (serializeItems cfg items).2)
      ∧ (∀ e : Entry, BibItem.entry e ∈ items → e.duplicate = false →
          BibItem.entry { e with fieldMap := none } ∈ (serializeItems cfg items).2) := by
  refine ⟨serializeItems_snd cfg items, fun e hmem hdup => ?_, fun e hmem hdup => ?_⟩
  · rw [serializeItems_snd]
    have : emitClear (BibItem.entry e) = BibItem.entry e := by simp [emitClear, hdup]
    exact this ▸ List.mem_map_of_mem emitClear hmem
  · rw [serializeItems_snd]
    have : emitClear (BibItem.entry e) = BibItem.entry { e with fieldMap := none } := by
      simp [emitClear, hdup]
    exact this ▸ List.mem_map_of_mem emitClear hmem

/-- C10 witness: the dropped duplicate keeps its populated field map, the
emitted entry loses its field map. -/
theorem c10_fieldMap_deletion_witness :
    BibItem.entry entDup ∈ (serializeItems {} [BibItem.entry entDup, BibItem.entry entWithYear]).2
      ∧ BibItem.entry { entWithYear with fieldMap := none }
          ∈ (serializeItems {} [BibItem.entry entDup, BibItem.entry entWithYear]).2 :=
  ⟨(c10_fieldMap_deletion {} _).2.1 entDup (by simp) (by decide),
   (c10_fieldMap_deletion {} _).2.2 entWithYear (by simp) (by decide)⟩

/-- C6 counterexample: with numeric rendering enabled, the non-negative
integer value `0` (datatype braced) is *not* emitted unquoted — the
pattern `^[1-9][0-9]*$` rejects a leading zero, so the serializer falls
through to the braced branch. -/
theorem c6_counterexample :
    renderValue { numeric := true } "year" ⟨"0", "braced"⟩ = "\x7b0\x7d"
      ∧ renderValue { numeric := true } "year" ⟨"0", "braced"⟩ ≠ "0" := by
  constructor <;> decide

/-- C6 amended: with numeric rendering enabled, a value matching
`^[1-9][0-9]*$` (a *positive* integer with no leading zero) is emitted
unquoted, for every field name and datatype. -/
theorem c6_numeric_unquoted (cfg : Config) (k : String) (vs : ValueString)
    (hnum : cfg.numeric = true) (hval : matchPositiveInt vs.value = true) :
    renderValue cfg k vs = vs.value := by
  unfold renderValue
  simp [hnum, hval]

/-- C6 witness. -/
theorem c6_numeric_unquoted_witness :
    ({ numeric := true } : Config).numeric = true
      ∧ matchPositiveInt "1942" = true
      ∧ renderValue { numeric := true } "pages" ⟨"1942", "quoted"⟩ = "1942" :=
  ⟨rfl, by decide, c6_numeric_unquoted { numeric := true } "pages" ⟨"1942", "quoted"⟩ rfl (by decide)⟩

/-- C8: the character immediately after a backslash is emitted verbatim —
for *every* escape table it is never substituted — and the skip state
resets after exactly one character; consequently `\&` is not
double-escaped while a bare `#` becomes `\#`. -/
theorem c8_escape_skip :
    (∀ (table : Char → Option String) (c : Char) (rest : List Char),
        escapeGo table true (c :: rest) = c :: escapeGo table false rest)
      ∧ (∀ (table : Char → Option String) (rest : List Char),
        escapeGo table false ('\\' :: rest) = '\\' :: escapeGo table true rest)
      ∧ escapeSpecialCharacters sampleEscapeTable "a#b" = "a\\#b"
      ∧ escapeSpecialCharacters sampleEscapeTable "\\&" = "\\&" :=
  ⟨fun _ _ _ => rfl, fun table rest => by simp [escapeGo], by decide, by decide⟩

/-! ## Merge-resolver lemmas (C4) -/

theorem hasKey_append {κ β : Type} [BEq κ] (k : κ) (m m' : List (κ × β)) :
    hasKey k (m ++ m') = (hasKey k m || hasKey k m') := by
  simp [hasKey, List.any_append]

theorem combine_foldl_preserves {κ β : Type} [BEq κ] {k : κ} {v : β}
    (abs : List (κ × β)) (m : List (κ × β)) (h : getKey k m = some v) :
    getKey k (abs.foldl (fun m kv => if hasKey kv.1 m then m else m ++ [kv]) m) = some v := by
  induction abs generalizing m with
  | nil => exact h
  | cons kv rest ih =>
    simp only [List.foldl_cons]
    by_cases hh : hasKey kv.1 m = true
    · rw [if_pos hh]; exact ih m h
    · rw [if_neg hh]; exact ih _ (getKey_append_left h)

theorem combine_foldl_adds {κ β : Type} [BEq κ] [LawfulBEq κ] {k : κ} {v : β}
    (abs : List (κ × β)) (m : List (κ × β)) (hm : hasKey k m = false)
    (h : getKey k abs = some v) :
    getKey k (abs.foldl (fun m kv => if hasKey kv.1 m then m else m ++ [kv]) m) = some v := by
  induction abs generalizing m with
  | nil => simp [getKey] at h
  | cons kv rest ih =>
    simp only [List.foldl_cons]
    by_cases hk : (kv.1 == k) = true
    · have hkeq : kv.1 = k := by simpa using hk
      have hv : v = kv.2 := by
        unfold getKey at h
        simp [List.find?, hk] at h
        exact h.symm
      rw [if_neg (by rw [hkeq]; simp [hm])]
      refine combine_foldl_preserves rest _ ?_
      rw [getKey_append_of_hasKey_false hm]
      subst hkeq
      simp [getKey, List.find?, hv]
    · have h' : getKey k rest = some v := by
        unfold getKey at h ⊢
        simpa [List.find?, hk] using h
      by_cases hh : hasKey kv.1 m = true
      · rw [if_pos hh]; exact ih m hm h'
      · rw [if_neg hh]
        refine ih _ ?_ h'
        rw [hasKey_append, hm]
        simp [hasKey, hk]

theorem overwrite_foldl_preserves {κ β : Type} [BEq κ] [LawfulBEq κ] {k : κ}
    (abs : List (κ × β)) (m : List (κ × β))
    (habs : ∀ kv ∈ abs, (kv.1 == k) = false) :
    getKey k (abs.foldl (fun m kv => setKey kv.1 kv.2 m) m) = getKey k m := by
  induction abs generalizing m with
  | nil => rfl
  | cons kv rest ih =>
    simp only [List.foldl_cons]
    rw [ih _ (fun kv' h' => habs kv' (List.mem_cons_of_mem _ h'))]
    refine getKey_setKey_other kv.2 m ?_
    have := habs kv (List.mem_cons_self _ _)
    simp only [beq_eq_false_iff_ne, ne_eq] at this ⊢
    exact fun hc => this hc.symm

theorem overwrite_foldl_takes {κ β : Type} [BEq κ] [LawfulBEq κ] {k : κ} {v : β}
    (abs : List (κ × β)) (m : List (κ × β)) (hnd : (abs.map Prod.fst).Nodup)
    (h : getKey k abs = some v) :
    getKey k (abs.foldl (fun m kv => setKey kv.1 kv.2 m) m) = some v := by
  induction abs generalizing m with
  | nil => simp [getKey] at h
  | cons kv rest ih =>
    simp only [List.map_cons, List.nodup_cons] at hnd
    simp only [List.foldl_cons]
    by_cases hk : (kv.1 == k) = true
    · have hkeq : kv.1 = k := by simpa using hk
      have hv : v = kv.2 := by
        unfold getKey at h
        simp [List.find?, hk] at h
        exact h.symm
      rw [overwrite_foldl_preserves rest _ ?_]
      · rw [hkeq, hv]; exact getKey_setKey_self k kv.2 m
      · intro kv' h'
        by_contra hc
        have : kv'.1 = k := by simpa using hc
        exact hnd.1 (by rw [← hkeq] at this; exact this ▸ List.mem_map_of_mem Prod.fst h')
    · have h' : getKey k rest = some v := by
        unfold getKey at h ⊢
        simpa [List.find?, hk] using h
      exact ih _ hnd.2 h'

/-- C4: the four merge strategies. `combine` never removes or overwrites a
field already present on the kept entry and copies in the absorbed entry's
fields that are absent; `overwrite` takes the absorbed entry's value for
every field it defines (in particular every field both entries define);
`first` leaves the kept entry completely unchanged; `last` replaces the
kept entry's raw field list wholesale by the absorbed entry's (its
normalized map is not rebuilt by this pass). -/
theorem c4_merge_strategies (kept absorbed : Entry) :
    (∀ (k : String) (v : ValueString), getKey k (fieldMapOf kept) = some v →
        getKey k (fieldMapOf (applyMergeStrategy .combine kept absorbed)) = some v)
      ∧ (∀ (k : String) (v : ValueString), hasKey k (fieldMapOf kept) = false →
          getKey k (fieldMapOf absorbed) = some v →
          getKey k (fieldMapOf (applyMergeStrategy .combine kept absorbed)) = some v)
      ∧ (((fieldMapOf absorbed).map Prod.fst).Nodup →
          ∀ (k : String) (v : ValueString), getKey k (fieldMapOf absorbed) = some v →
          getKey k (fieldMapOf (applyMergeStrategy .overwrite kept absorbed)) = some v)
      ∧ applyMergeStrategy .first kept absorbed = kept
      ∧ (applyMergeStrategy .last kept absorbed).fields = absorbed.fields := by
  refine ⟨fun k v h => ?_, fun k v hm h => ?_, fun hnd k v h => ?_, rfl, rfl⟩
  · exact combine_foldl_preserves _ _ h
  · exact combine_foldl_adds _ _ hm h
  · exact overwrite_foldl_takes _ _ hnd h

/-- C4 witness: a concrete kept/absorbed pair exercising each strategy
conjunct. -/
theorem c4_merge_strategies_witness :
    (getKey "title" (fieldMapOf (applyMergeStrategy .combine entDup entWithYear))
        = some ⟨"T", "braced"⟩)
      ∧ (getKey "year" (fieldMapOf (applyMergeStrategy .combine entDup entWithYear))
          = some ⟨"2000", "braced"⟩)
      ∧ (getKey "year" (fieldMapOf (applyMergeStrategy .overwrite entDup entWithYear))
          = some ⟨"2000", "braced"⟩)
      ∧ applyMergeStrategy .first entDup entWithYear = entDup
      ∧ (applyMergeStrategy .last entDup entWithYear).fields = entWithYear.fields :=
  ⟨(c4_merge_strategies entDup entWithYear).1 "title" ⟨"T", "braced"⟩ (by decide),
   (c4_merge_strategies entDup entWithYear).2.1 "year" ⟨"2000", "braced"⟩ (by decide) (by decide),
   (c4_merge_strategies entDup entWithYear).2.2.1 (by decide) "year" ⟨"2000", "braced"⟩ (by decide),
   (c4_merge_strategies entDup entWithYear).2.2.2.1,
   (c4_merge_strategies entDup entWithYear).2.2.2.2⟩

/-! ## Duplicate-criteria order (C2) -/

theorem contains_true_iff_mem {α : Type} [BEq α] [LawfulBEq α] (l : List α) (a : α) :
    l.contains a = true ↔ a ∈ l := by
  simp [List.contains_iff_exists_mem_beq, beq_iff_eq]

theorem hasKey_true_iff_mem_map {κ β : Type} [BEq κ] [LawfulBEq κ] (k : κ)
    (m : List (κ × β)) : hasKey k m = true ↔ k ∈ m.map Prod.fst := by
  simp [hasKey, List.any_eq_true, beq_iff_eq]

theorem map_setKey_id {κ : Type} [BEq κ] [LawfulBEq κ] (k : κ)
    (acc : List (κ × Bool)) (hall : ∀ kv ∈ acc, kv.2 = true) :
    acc.map (fun kv => if kv.1 == k then (k, true) else kv) = acc := by
  induction acc with
  | nil => rfl
  | cons kv rest ih =>
    simp only [List.map_cons]
    congr 1
    · by_cases hk : (kv.1 == k) = true
      · have h1 : kv.1 = k := by simpa using hk
        have h2 : kv.2 = true := hall kv (List.mem_cons_self _ _)
        simp [hk, ← h1, ← h2]
      · simp [hk]
    · exact ih (fun kv' h' => hall kv' (List.mem_cons_of_mem _ h'))

theorem setKey_true_of_all_true {κ : Type} [BEq κ] [LawfulBEq κ] (k : κ)
    (acc : List (κ × Bool)) (hall : ∀ kv ∈ acc, kv.2 = true)
    (h : hasKey k acc = true) : setKey k true acc = acc := by
  unfold setKey
  rw [if_pos h, map_setKey_id k acc hall]

theorem mem_dedupKeepFirst {α : Type} [BEq α] [LawfulBEq α] (a : α) :
    ∀ (l seen : List α), a ∈ dedupKeepFirst seen l ↔ (a ∈ l ∧ ¬ a ∈ seen)
  | [], seen => by simp [dedupKeepFirst]
  | x :: xs, seen => by
    unfold dedupKeepFirst
    by_cases hc : seen.contains x = true
    · rw [if_pos hc]
      rw [mem_dedupKeepFirst a xs seen]
      have hx : x ∈ seen := (contains_true_iff_mem seen x).mp hc
      constructor
      · exact fun ⟨h1, h2⟩ => ⟨List.mem_cons_of_mem _ h1, h2⟩
      · rintro ⟨h1, h2⟩
        rcases List.mem_cons.mp h1 with h1 | h1
        · exact absurd (h1 ▸ hx) h2
        · exact ⟨h1, h2⟩
    · rw [if_neg hc]
      simp only [List.mem_cons, mem_dedupKeepFirst a xs (seen ++ [x]), List.mem_append]
      by_cases hax : a = x
      · subst hax
        have hxs : ¬ a ∈ seen := fun hmem => hc ((contains_true_iff_mem seen a).mpr hmem)
        simp [hxs]
      · simp only [List.mem_singleton, hax]
        tauto

theorem foldl_setKey_true {κ : Type} [BEq κ] [LawfulBEq κ] :
    ∀ (ml : List κ) (acc : List (κ × Bool)), (∀ kv ∈ acc, kv.2 = true) →
      ml.foldl (fun acc k => setKey k true acc) acc
        = acc ++ (dedupKeepFirst (acc.map Prod.fst) ml).map (fun k => (k, true))
  | [], acc, _ => by simp [dedupKeepFirst]
  | k :: rest, acc, hall => by
    simp only [List.foldl_cons]
    unfold dedupKeepFirst
    have hconn : (acc.map Prod.fst).contains k = hasKey k acc :=
      Bool.coe_iff_coe.mp
        ((contains_true_iff_mem _ k).trans (hasKey_true_iff_mem_map k acc).symm)
    by_cases hh : hasKey k acc = true
    · rw [setKey_true_of_all_true k acc hall hh, if_pos (hconn.trans hh)]
      exact foldl_setKey_true rest acc hall
    · have hsk : setKey k true acc = acc ++ [(k, true)] := by
        unfold setKey
        rw [if_neg hh]
      rw [hsk, if_neg (fun hc => hh (hconn.symm.trans hc)),
        foldl_setKey_true rest (acc ++ [(k, true)]) ?hall2]
      case hall2 =>
        intro kv hkv
        rcases List.mem_append.mp hkv with h | h
        · exact hall kv h
        · simp at h; simp [h]
      simp

/-- C2 counterexample: with `merge = ['doi']` the criteria are iterated
as `doi` (merge-enabled) *then* `key` — the `key` criterion is appended
after the requested criteria, not checked before them. -/
theorem c2_counterexample :
    buildUniqCheck (some [.doi]) = [(UniqueKey.doi, true), (UniqueKey.key, false)]
      ∧ (buildUniqCheck (some [.doi])).head? ≠ some (UniqueKey.key, false) := by
  constructor <;> decide

/-- C2 amended: the criteria are iterated in a fixed deterministic order:
the explicitly requested criteria first, in their configured order
(deduplicated, first occurrence wins, all merge-enabled), with the `key`
criterion appended last as warn-only unless it was itself requested; with
no requested criteria only `key` is checked. -/
theorem c2_criteria_order :
    (∀ ml : List UniqueKey, buildUniqCheck (some ml) = uniqCheckSpec ml)
      ∧ buildUniqCheck none = [(UniqueKey.key, false)] := by
  refine ⟨fun ml => ?_, rfl⟩
  unfold buildUniqCheck uniqCheckSpec
  rw [show (some ml).getD [] = ml from rfl]
  rw [foldl_setKey_true ml [] (by simp)]
  simp only [List.map_nil, List.nil_append]
  have hmem : ∀ a : UniqueKey, a ∈ dedupKeepFirst ([] : List UniqueKey) ml ↔ a ∈ ml := by
    intro a; rw [mem_dedupKeepFirst]; simp
  have hcond : hasKey UniqueKey.key ((dedupKeepFirst ([] : List UniqueKey) ml).map
      (fun k => (k, true))) = ml.contains UniqueKey.key := by
    refine Bool.coe_iff_coe.mp ?_
    rw [hasKey_true_iff_mem_map, contains_true_iff_mem]
    simp only [List.map_map]
    have : (Prod.fst ∘ fun k : UniqueKey => (k, true)) = id := rfl
    rw [this, List.map_id]
    exact hmem _
  rw [hcond]
  rcases hb : ml.contains UniqueKey.key with _ | _
  · simp
  · simp

/-! ## Whitespace normalization (C3) -/

theorem collapseNlGo_nonWs (t : List Char) :
    ∀ w : List Char, (∀ c ∈ w, isJsWs c = false) →
      collapseNlGo [] false (w ++ t) = w ++ collapseNlGo [] false t
  | [], _ => by simp
  | c :: w', hw => by
    have hc : isJsWs c = false := hw c (List.mem_cons_self _ _)
    simp only [List.cons_append, collapseNlGo, hc, Bool.false_eq_true, if_false, flushRun,
      if_pos rfl, List.nil_append]
    exact congrArg (c :: ·) (collapseNlGo_nonWs t w' fun d hd => hw d (List.mem_cons_of_mem _ hd))

theorem collapseNlGo_wsRun (t : List Char) :
    ∀ (r pending : List Char) (sawNl : Bool), (∀ c ∈ r, isJsWs c = true) →
      collapseNlGo pending sawNl (r ++ t)
        = collapseNlGo (pending ++ r) (sawNl || r.contains '\n') t
  | [], pending, sawNl, _ => by simp
  | c :: r', pending, sawNl, hr => by
    have hc : isJsWs c = true := hr c (List.mem_cons_self _ _)
    have step : collapseNlGo pending sawNl ((c :: r') ++ t)
        = collapseNlGo (pending ++ [c]) (sawNl || decide (c = '\n')) (r' ++ t) := by
      simp [collapseNlGo, hc]
    rw [step,
      collapseNlGo_wsRun t r' (pending ++ [c]) _ (fun d hd => hr d (List.mem_cons_of_mem _ hd))]
    congr 1
    · simp
    · by_cases h : c = '\n' <;> simp [h, List.contains_cons, Bool.or_assoc, eq_comm]

theorem collapseNlGo_no_newline :
    ∀ (l pending : List Char) (sawNl : Bool),
      ('\n' ∈ pending → sawNl = true) → ¬ '\n' ∈ collapseNlGo pending sawNl l
  | [], pending, sawNl, hinv => by
    unfold collapseNlGo flushRun
    by_cases hp : pending = []
    · simp [hp]
    · rw [if_neg hp]
      by_cases hs : sawNl = true
      · simp [hs]
      · rw [if_neg hs]
        exact fun hc => hs (hinv hc)
  | c :: rest, pending, sawNl, hinv => by
    unfold collapseNlGo
    by_cases hc : isJsWs c = true
    · rw [if_pos hc]
      refine collapseNlGo_no_newline rest _ _ ?_
      intro hmem
      rcases List.mem_append.mp hmem with h | h
      · simp [hinv h]
      · simp only [List.mem_singleton] at h
        simp [← h]
    · rw [if_neg hc]
      intro hmem
      rcases List.mem_append.mp hmem with h | h
      · revert h
        unfold flushRun
        by_cases hp : pending = []
        · simp [hp]
        · rw [if_neg hp]
          by_cases hs : sawNl = true
          · simp [hs]
          · rw [if_neg hs]
            exact fun hc' => hs (hinv hc')
      · rcases List.mem_cons.mp h with h | h
        · rw [← h] at hc
          simp [isJsWs] at hc
        · exact collapseNlGo_no_newline rest [] false (by simp) h

theorem head_dropWhile_false (p : Char → Bool) :
    ∀ (l : List Char) (a : Char), (l.dropWhile p).head? = some a → p a = false
  | [], a => by simp
  | c :: rest, a => by
    by_cases hc : p c = true
    · rw [List.dropWhile_cons_of_pos hc]
      exact head_dropWhile_false p rest a
    · rw [List.dropWhile_cons_of_neg (by simpa using hc)]
      intro h
      simp at h
      rw [← h]
      simpa using hc

theorem jsTrimList_head_not_ws (l : List Char) (a : Char)
    (h : (jsTrimList l).head? = some a) : isJsWs a = false := by
  unfold jsTrimList at h
  rw [List.head?_reverse] at h
  have hne : (l.dropWhile isJsWs).reverse.dropWhile isJsWs ≠ [] := by
    intro hc
    rw [hc] at h
    simp at h
  rcases (List.dropWhile_suffix isJsWs :
      (l.dropWhile isJsWs).reverse.dropWhile isJsWs <:+ (l.dropWhile isJsWs).reverse)
    with ⟨z, hz⟩
  have h2 : ((l.dropWhile isJsWs).reverse).getLast? = some a := by
    rw [← hz]
    exact (List.getLast?_append_of_ne_nil _ hne).trans h
  rw [List.getLast?_reverse] at h2
  exact head_dropWhile_false isJsWs l a h2

theorem jsTrimList_last_not_ws (l : List Char) (a : Char)
    (h : (jsTrimList l).getLast? = some a) : isJsWs a = false := by
  unfold jsTrimList at h
  rw [List.getLast?_reverse] at h
  exact head_dropWhile_false isJsWs _ a h

theorem mem_jsTrimList {l : List Char} {c : Char} (h : c ∈ jsTrimList l) : c ∈ l := by
  unfold jsTrimList at h
  rw [List.mem_reverse] at h
  have h1 := (List.dropWhile_suffix isJsWs).subset h
  rw [List.mem_reverse] at h1
  exact (List.dropWhile_suffix isJsWs).subset h1

/-- C3 counterexample: the run of two plain spaces in `a  b` contains no
newline, so the normalization step leaves it intact — internal whitespace
runs are *not* all collapsed to a single space. -/
theorem c3_counterexample :
    normalizeWhitespace "a  b" = "a  b" ∧ normalizeWhitespace "a  b" ≠ "a b" := by
  constructor <;> decide

/-- C3 amended: the whitespace-normalization step collapses exactly the
internal whitespace runs that contain an embedded newline to a single
space, leaves whitespace runs without a newline unchanged, and trims
leading and trailing whitespace; consequently the result never contains a
newline and never starts or ends with whitespace. -/
theorem c3_whitespace_collapse :
    (∀ w t : List Char, (∀ c ∈ w, isJsWs c = false) →
        collapseNlRuns (w ++ t) = w ++ collapseNlRuns t)
      ∧ (∀ r t : List Char, r ≠ [] → (∀ c ∈ r, isJsWs c = true) →
          (∀ c, t.head? = some c → isJsWs c = false) →
          collapseNlRuns (r ++ t)
            = (if r.contains '\n' then [' '] else r) ++ collapseNlRuns t)
      ∧ (∀ s : String, ¬ '\n' ∈ (normalizeWhitespace s).data)
      ∧ (∀ (s : String) (c : Char),
          (normalizeWhitespace s).data.head? = some c → isJsWs c = false)
      ∧ (∀ (s : String) (c : Char),
          (normalizeWhitespace s).data.getLast? = some c → isJsWs c = false) := by
  refine ⟨fun w t hw => collapseNlGo_nonWs t w hw, fun r t hne hr ht => ?_,
    fun s hmem => ?_, fun s c h => ?_, fun s c h => ?_⟩
  · unfold collapseNlRuns
    rw [collapseNlGo_wsRun t r [] false hr]
    simp only [List.nil_append, Bool.false_or]
    cases t with
    | nil =>
      simp only [collapseNlGo, flushRun, if_neg hne, List.append_nil]
      rcases hc : r.contains '\n' with _ | _ <;> simp
    | cons c t' =>
      have hc : isJsWs c = false := ht c rfl
      simp only [collapseNlGo, hc, Bool.false_eq_true, if_false, flushRun, if_neg hne,
        if_pos rfl, List.nil_append]
      rcases hcn : r.contains '\n' with _ | _ <;> simp
  · have h1 : '\n' ∈ collapseNlGo [] false s.data :=
      mem_jsTrimList (by simpa [normalizeWhitespace, jsTrim, collapseNlRuns] using hmem)
    exact collapseNlGo_no_newline s.data [] false (by simp) h1
  · exact jsTrimList_head_not_ws _ c (by simpa [normalizeWhitespace, jsTrim] using h)
  · exact jsTrimList_last_not_ws _ c (by simpa [normalizeWhitespace, jsTrim] using h)

/-- C3 witness: the amended behavior at concrete inputs — a space-only run
is preserved, a newline-containing run collapses to one space. -/
theorem c3_whitespace_collapse_witness :
    collapseNlRuns ("a".data ++ [' ', ' '] ++ "b".data)
        = "a".data ++ collapseNlRuns ([' ', ' '] ++ "b".data)
      ∧ collapseNlRuns ([' ', '\n', ' '] ++ "b".data)
          = [' '] ++ collapseNlRuns "b".data
      ∧ ¬ '\n' ∈ (normalizeWhitespace "a \n b").data :=
  ⟨by
    have := c3_whitespace_collapse.1 "a".data ([' ', ' '] ++ "b".data) (by decide)
    simpa using this,
   by
    have := c3_whitespace_collapse.2.1 [' ', '\n', ' '] "b".data (by decide) (by decide)
      (fun c h => by simp at h; simp [← h]; decide)
    simpa using this,
   c3_whitespace_collapse.2.2.1 "a \n b"⟩

/-! ## Sort planner lemmas (C1, C7) -/

theorem listLeB_total : ∀ a b : List Char, listLeB a b = true ∨ listLeB b a = true
  | [], _ => Or.inl rfl
  | _ :: _, [] => Or.inr rfl
  | a :: as, b :: bs => by
    by_cases h1 : a.toNat < b.toNat
    · left; simp [listLeB, h1]
    · by_cases h2 : b.toNat < a.toNat
      · right; simp [listLeB, h1, h2]
      · rcases listLeB_total as bs with h | h
        · left; simp [listLeB, h1, h2, h]
        · right; simp [listLeB, h1, h2, h]

theorem listLeB_trans : ∀ a b c : List Char,
    listLeB a b = true → listLeB b c = true → listLeB a c = true
  | [], _, _ => fun _ _ => rfl
  | _ :: _, [], _ => fun h1 _ => absurd h1 (by simp [listLeB])
  | _ :: _, _ :: _, [] => fun _ h2 => absurd h2 (by simp [listLeB])
  | a :: as, b :: bs, c :: cs => by
    intro h1 h2
    by_cases hab1 : a.toNat < b.toNat
    · by_cases hbc1 : b.toNat < c.toNat
      · simp [listLeB, show a.toNat < c.toNat by omega]
      · by_cases hbc2 : c.toNat < b.toNat
        · simp [listLeB, hbc1, hbc2] at h2
        · simp [listLeB, show a.toNat < c.toNat by omega]
    · by_cases hab2 : b.toNat < a.toNat
      · simp [listLeB, hab1, hab2] at h1
      · simp only [listLeB, hab1, hab2, if_false] at h1
        by_cases hbc1 : b.toNat < c.toNat
        · simp [listLeB, show a.toNat < c.toNat by omega]
        · by_cases hbc2 : c.toNat < b.toNat
          · simp [listLeB, hbc1, hbc2] at h2
          · simp only [listLeB, hbc1, hbc2, if_false] at h2
            have hac1 : ¬ a.toNat < c.toNat := by omega
            have hac2 : ¬ c.toNat < a.toNat := by omega
            simp only [listLeB, hac1, hac2, if_false]
            exact listLeB_trans as bs cs h1 h2

theorem listLeB_nil_right : ∀ a : List Char, listLeB a [] = true → a = []
  | [], _ => rfl
  | _ :: _, h => by simp [listLeB] at h

theorem strLe_empty {s : String} (h : strLe s "" = true) : s = "" := by
  rcases s with ⟨d⟩
  have : d = [] := listLeB_nil_right d (by simpa [strLe] using h)
  rw [this]

theorem keyRel_total (k0 : String) (a b : BibItem × Option SortIndex) :
    keyRel k0 a b ∨ keyRel k0 b a := by
  unfold keyRel
  split <;> exact listLeB_total _ _

theorem keyRel_trans (k0 : String) (a b c : BibItem × Option SortIndex)
    (h1 : keyRel k0 a b) (h2 : keyRel k0 b c) : keyRel k0 a c := by
  unfold keyRel at h1 h2 ⊢
  split at h1 <;> rename_i hd <;> simp only [hd, if_true, if_false] at h2 ⊢
  · exact listLeB_trans _ _ _ h2 h1
  · exact listLeB_trans _ _ _ h1 h2

theorem attachIndexes_mem {keys : List String} :
    ∀ {items : List BibItem} {p : BibItem × Option SortIndex},
      p ∈ attachIndexes keys items → ∀ e : Entry, p.1 = .entry e →
      p.2 = some (mkSortIndex keys e)
  | [], p, h => by simp [attachIndexes] at h
  | it :: rest, p, h => by
    intro e he
    unfold attachIndexes at h
    rcases List.mem_cons.mp h with h | h
    · rw [h] at he ⊢
      simp only at he ⊢
      rw [he]
    · exact attachIndexes_mem h e he

theorem mkSortIndex_single (k0 : String) (e : Entry) :
    mkSortIndex [k0] e = [(stripDash k0, lowerStr (sortValOf (stripDash k0) e))] := by
  simp [mkSortIndex, setKey, hasKey]

theorem sortKeyVal_entry_single {k0 : String} {p : BibItem × Option SortIndex} {e : Entry}
    (hp2 : p.2 = some (mkSortIndex [k0] e)) :
    sortKeyVal (stripDash k0) p = lowerStr (sortValOf (stripDash k0) e) := by
  unfold sortKeyVal
  rw [hp2, mkSortIndex_single]
  simp [getKey, List.find?]

theorem sortPass_single (k : String) (items : List BibItem) :
    sortPass [k] items
      = (List.insertionSort (keyRel k) (attachIndexes [k] items)).map (·.1) := rfl

/-- C1 counterexample: with the single ascending sort key `year`, the
entry lacking a `year` field is placed *first*, not last: a missing field
contributes the empty string (line 380: `?? ''`), not the `￰` sentinel,
and the empty string sorts before every real value. -/
theorem c1_counterexample :
    sortPass ["year"] [.entry entWithYear, .entry entNoYear]
        = [.entry entNoYear, .entry entWithYear]
      ∧ sortValOf "year" entNoYear = ""
      ∧ sortValOf "year" entWithYear = "2000" := by
  refine ⟨?_, by decide, by decide⟩
  decide

/-- C1 amended: an entry that lacks the configured sort field is assigned
the empty string, which compares before every real (nonempty) value, so
for a one-key sort such entries are placed first when the key is ascending
and last when it is descending. (The `￰` sentinel is used only for items
with no sort index at all, i.e. trailing non-entry items.) -/
theorem c1_missing_field_position (k : String) (items : List BibItem) :
    (startsWithDash k = false →
        List.Pairwise (emptyValFirst k) (sortPass [k] items))
      ∧ (startsWithDash k = true →
        List.Pairwise (emptyValLast (String.mk k.data.tail)) (sortPass [k] items)) := by
  have hsorted : List.Sorted (keyRel k) (List.insertionSort (keyRel k) (attachIndexes [k] items)) := by
    haveI : IsTotal (BibItem × Option SortIndex) (keyRel k) := ⟨keyRel_total k⟩
    haveI : IsTrans (BibItem × Option SortIndex) (keyRel k) := ⟨keyRel_trans k⟩
    exact List.sorted_insertionSort (keyRel k) (attachIndexes [k] items)
  constructor
  · intro hdash
    have hstrip : stripDash k = k := by unfold stripDash; rw [hdash]; simp
    rw [sortPass_single, List.pairwise_map]
    refine hsorted.imp_of_mem ?_
    intro p q hp hq hrel
    intro ea eb hpa hqb
    have hp2 := attachIndexes_mem ((List.mem_insertionSort (keyRel k)).mp hp) ea hpa
    have hq2 := attachIndexes_mem ((List.mem_insertionSort (keyRel k)).mp hq) eb hqb
    have hvp := sortKeyVal_entry_single hp2
    have hvq := sortKeyVal_entry_single hq2
    rw [hstrip] at hvp hvq
    unfold keyRel at hrel
    rw [if_neg (by simp [hdash])] at hrel
    rw [hvp, hvq] at hrel
    by_cases hb : lowerStr (sortValOf k eb) = ""
    · left
      exact strLe_empty (hb ▸ hrel)
    · right
      exact hb
  · intro hdash
    have hstrip : stripDash k = String.mk k.data.tail := by
      unfold stripDash; rw [hdash]; simp
    rw [sortPass_single, List.pairwise_map]
    refine hsorted.imp_of_mem ?_
    intro p q hp hq hrel
    intro ea eb hpa hqb
    have hp2 := attachIndexes_mem ((List.mem_insertionSort (keyRel k)).mp hp) ea hpa
    have hq2 := attachIndexes_mem ((List.mem_insertionSort (keyRel k)).mp hq) eb hqb
    have hvp := sortKeyVal_entry_single hp2
    have hvq := sortKeyVal_entry_single hq2
    rw [hstrip] at hvp hvq
    unfold keyRel at hrel
    rw [if_pos (by simp [hdash])] at hrel
    rw [hvp, hvq] at hrel
    by_cases ha : lowerStr (sortValOf (String.mk k.data.tail) ea) = ""
    · right
      exact strLe_empty (ha ▸ hrel)
    · left
      exact ha

/-- C1 amended witness: concretely, ascending `year` puts the
missing-field entry first, descending `-year` puts it last. -/
theorem c1_missing_field_position_witness :
    startsWithDash "year" = false
      ∧ List.Pairwise (emptyValFirst "year")
          (sortPass ["year"] [.entry entWithYear, .entry entNoYear])
      ∧ startsWithDash "-year" = true
      ∧ List.Pairwise (emptyValLast (String.mk "-year".data.tail))
          (sortPass ["-year"] [.entry entWithYear, .entry entNoYear]) :=
  ⟨rfl,
   (c1_missing_field_position "year" [.entry entWithYear, .entry entNoYear]).1 rfl,
   rfl,
   (c1_missing_field_position "-year" [.entry entWithYear, .entry entNoYear]).2 rfl⟩

/-! ## Stable-sort composition (C7)

The repeated-stable-sort-per-key technique: sorting stably by the last key
first and the first key last is the same as a single stable sort by the
lexicographic combination of the keys. The next lemmas prove this for
`List.insertionSort` (the model of the stable `Array.prototype.sort`). -/

theorem orderedInsert_congr {α : Type} (r r' : α → α → Prop)
    [DecidableRel r] [DecidableRel r'] (a : α) :
    ∀ l : List α, (∀ c ∈ l, r a c ↔ r' a c) →
      l.orderedInsert r a = l.orderedInsert r' a
  | [], _ => rfl
  | b :: t, h => by
    by_cases hb : r a b
    · have hb' : r' a b := (h b (List.mem_cons_self _ _)).mp hb
      simp [List.orderedInsert, hb, hb']
    · have hb' : ¬ r' a b := fun hc => hb ((h b (List.mem_cons_self _ _)).mpr hc)
      simp only [List.orderedInsert, if_neg hb, if_neg hb']
      exact congrArg (b :: ·)
        (orderedInsert_congr r r' a t (fun c hc => h c (List.mem_cons_of_mem _ hc)))

theorem orderedInsert_comm {α : Type} (p q : α → α → Prop)
    [DecidableRel p] [DecidableRel q] (a b : α) :
    ∀ M : List α, (q a b ↔ ¬ p b a) →
      (∀ c ∈ M, p b a → q a c → p b c) →
      (∀ c ∈ M, ¬ p b a → p b c → q a c) →
      (M.orderedInsert q a).orderedInsert p b = (M.orderedInsert p b).orderedInsert q a
  | [], hab, _, _ => by
    by_cases hpba : p b a
    · have hq : ¬ q a b := fun hc => (hab.mp hc) hpba
      simp [List.orderedInsert, hpba, hq]
    · have hq : q a b := hab.mpr hpba
      simp [List.orderedInsert, hpba, hq]
  | c :: M', hab, h1, h2 => by
    by_cases hqac : q a c <;> by_cases hpbc : p b c
    · by_cases hpba : p b a
      · have hq : ¬ q a b := fun hc => (hab.mp hc) hpba
        simp [List.orderedInsert, hqac, hpbc, hpba, hq]
      · have hq : q a b := hab.mpr hpba
        simp [List.orderedInsert, hqac, hpbc, hpba, hq]
    · have hpba : ¬ p b a := fun hp => hpbc (h1 c (List.mem_cons_self _ _) hp hqac)
      simp [List.orderedInsert, hqac, hpbc, hpba]
    · have hpba : p b a := by
        by_contra hp
        exact hqac (h2 c (List.mem_cons_self _ _) hp hpbc)
      have hq : ¬ q a b := fun hc => (hab.mp hc) hpba
      simp [List.orderedInsert, hqac, hpbc, hq]
    · simp only [List.orderedInsert, if_neg hqac, if_neg hpbc]
      exact congrArg (c :: ·)
        (orderedInsert_comm p q a b M' hab
          (fun d hd => h1 d (List.mem_cons_of_mem _ hd))
          (fun d hd => h2 d (List.mem_cons_of_mem _ hd)))

theorem insertionSort_orderedInsert {α : Type} (r₁ r₂ : α → α → Prop)
    [DecidableRel r₁] [DecidableRel r₂]
    (t1 : ∀ x y, r₁ x y ∨ r₁ y x)
    (tr1 : ∀ x y z, r₁ x y → r₁ y z → r₁ x z)
    (tr2 : ∀ x y z, r₂ x y → r₂ y z → r₂ x z) (a : α) :
    ∀ l : List α, List.Sorted r₂ l →
      List.insertionSort r₁ (l.orderedInsert r₂ a)
        = (List.insertionSort r₁ l).orderedInsert (lexComb r₁ r₂) a
  | [], _ => by simp [List.insertionSort, List.orderedInsert]
  | b :: t, hs => by
    have ht : List.Sorted r₂ t := hs.of_cons
    have hble : ∀ c ∈ t, r₂ b c := List.rel_of_sorted_cons hs
    by_cases hr2 : r₂ a b
    · rw [List.orderedInsert_of_le r₂ t hr2]
      simp only [List.insertionSort]
      refine orderedInsert_congr r₁ (lexComb r₁ r₂) a _ ?_
      intro c hc
      have hc' : c ∈ b :: t := (List.mem_insertionSort r₁).mp hc
      have hr2c : r₂ a c := by
        rcases List.mem_cons.mp hc' with h | h
        · rw [h]; exact hr2
        · exact tr2 a b c hr2 (hble c h)
      constructor
      · intro h1c
        by_cases hca : r₁ c a
        · exact Or.inr ⟨h1c, hca, hr2c⟩
        · exact Or.inl ⟨h1c, hca⟩
      · rintro (⟨h, _⟩ | ⟨h, _, _⟩) <;> exact h
    · rw [show (b :: t).orderedInsert r₂ a = b :: t.orderedInsert r₂ a from by
        simp [List.orderedInsert, hr2]]
      simp only [List.insertionSort]
      rw [insertionSort_orderedInsert r₁ r₂ t1 tr1 tr2 a t ht]
      refine orderedInsert_comm r₁ (lexComb r₁ r₂) a b _ ?_ ?_ ?_
      · constructor
        · rintro (⟨_, hn⟩ | ⟨_, _, h2'⟩)
          · exact hn
          · exact absurd h2' hr2
        · intro hn
          rcases t1 a b with h | h
          · exact Or.inl ⟨h, hn⟩
          · exact absurd h hn
      · intro c _ hba hlac
        rcases hlac with ⟨hac, _⟩ | ⟨hac, _, _⟩ <;> exact tr1 b a c hba hac
      · intro c _ hnba hbc
        have hab : r₁ a b := by
          rcases t1 a b with h | h
          · exact h
          · exact absurd h hnba
        have hac : r₁ a c := tr1 a b c hab hbc
        have hnca : ¬ r₁ c a := fun hca => hnba (tr1 b c a hbc hca)
        exact Or.inl ⟨hac, hnca⟩

theorem insertionSort_insertionSort {α : Type} (r₁ r₂ : α → α → Prop)
    [DecidableRel r₁] [DecidableRel r₂]
    (t1 : ∀ x y, r₁ x y ∨ r₁ y x)
    (tr1 : ∀ x y z, r₁ x y → r₁ y z → r₁ x z)
    (t2 : ∀ x y, r₂ x y ∨ r₂ y x)
    (tr2 : ∀ x y z, r₂ x y → r₂ y z → r₂ x z) :
    ∀ l : List α,
      List.insertionSort r₁ (List.insertionSort r₂ l)
        = List.insertionSort (lexComb r₁ r₂) l
  | [] => rfl
  | a :: t => by
    have hs : List.Sorted r₂ (List.insertionSort r₂ t) := by
      haveI : IsTotal α r₂ := ⟨t2⟩
      haveI : IsTrans α r₂ := ⟨fun x y z => tr2 x y z⟩
      exact List.sorted_insertionSort r₂ t
    simp only [List.insertionSort]
    rw [insertionSort_orderedInsert r₁ r₂ t1 tr1 tr2 a _ hs,
      insertionSort_insertionSort r₁ r₂ t1 tr1 t2 tr2 t]

theorem lexComb_total {α : Type} (r₁ r₂ : α → α → Prop)
    (t1 : ∀ x y, r₁ x y ∨ r₁ y x) (t2 : ∀ x y, r₂ x y ∨ r₂ y x) (a b : α) :
    lexComb r₁ r₂ a b ∨ lexComb r₁ r₂ b a := by
  by_cases hab : r₁ a b <;> by_cases hba : r₁ b a
  · rcases t2 a b with h | h
    · exact Or.inl (Or.inr ⟨hab, hba, h⟩)
    · exact Or.inr (Or.inr ⟨hba, hab, h⟩)
  · exact Or.inl (Or.inl ⟨hab, hba⟩)
  · exact Or.inr (Or.inl ⟨hba, hab⟩)
  · rcases t1 a b with h | h
    · exact absurd h hab
    · exact absurd h hba

theorem lexComb_trans {α : Type} (r₁ r₂ : α → α → Prop)
    (tr1 : ∀ x y z, r₁ x y → r₁ y z → r₁ x z)
    (tr2 : ∀ x y z, r₂ x y → r₂ y z → r₂ x z) (a b c : α)
    (h1 : lexComb r₁ r₂ a b) (h2 : lexComb r₁ r₂ b c) : lexComb r₁ r₂ a c := by
  rcases h1 with ⟨hab, hnba⟩ | ⟨hab, hba, h2ab⟩ <;>
    rcases h2 with ⟨hbc, hncb⟩ | ⟨hbc, hcb, h2bc⟩
  · exact Or.inl ⟨tr1 a b c hab hbc, fun hca => hncb (tr1 c a b hca hab)⟩
  · exact Or.inl ⟨tr1 a b c hab hbc, fun hca => hnba (tr1 b c a hbc hca)⟩
  · exact Or.inl ⟨tr1 a b c hab hbc, fun hca => hncb (tr1 c a b hca hab)⟩
  · exact Or.inr ⟨tr1 a b c hab hbc, tr1 c b a hcb hba, tr2 a b c h2ab h2bc⟩

theorem compositeRel_total :
    ∀ (ks : List String) (a b : BibItem × Option SortIndex),
      compositeRel ks a b ∨ compositeRel ks b a
  | [], _, _ => Or.inl trivial
  | k :: ks, a, b =>
    lexComb_total (keyRel k) (compositeRel ks) (keyRel_total k)
      (compositeRel_total ks) a b

theorem compositeRel_trans :
    ∀ (ks : List String) (a b c : BibItem × Option SortIndex),
      compositeRel ks a b → compositeRel ks b c → compositeRel ks a c
  | [], _, _, _ => fun _ _ => trivial
  | k :: ks, a, b, c => fun h1 h2 =>
    lexComb_trans (keyRel k) (compositeRel ks) (keyRel_trans k)
      (compositeRel_trans ks) a b c h1 h2

theorem insertionSort_compositeRel_nil (l : List (BibItem × Option SortIndex)) :
    List.insertionSort (compositeRel []) l = l := by
  induction l with
  | nil => rfl
  | cons a t ih =>
    simp only [List.insertionSort, ih]
    cases t with
    | nil => rfl
    | cons b t' => simp [List.orderedInsert, compositeRel]

theorem foldr_insertionSort_composite :
    ∀ (keys : List String) (l : List (BibItem × Option SortIndex)),
      keys.foldr (fun k acc => List.insertionSort (keyRel k) acc) l
        = List.insertionSort (compositeRel keys) l
  | [], l => (insertionSort_compositeRel_nil l).symm
  | k :: ks, l => by
    simp only [List.foldr_cons]
    rw [foldr_insertionSort_composite ks l]
    exact insertionSort_insertionSort (keyRel k) (compositeRel ks)
      (keyRel_total k) (keyRel_trans k) (compositeRel_total ks)
      (compositeRel_trans ks) l

/-- C7: for every sort-key list and every item list, the sort pass (one
stable sort per key, last key first) produces exactly the same order as a
single stable sort with the composite lexicographic comparator built from
the same keys in the same priority order. -/
theorem c7_composite_equivalence (keys : List String) (items : List BibItem) :
    sortPass keys items = compositeSortPass keys items := by
  unfold sortPass compositeSortPass
  rw [foldr_insertionSort_composite keys (attachIndexes keys items)]

/-- C9: tidy is not idempotent. With merging on `citation` then `doi`
(default `combine` strategy, escaping off), the input `in9` merges entry
`b` into entry `a` under the citation criterion, which copies `b`'s `doi`
into `a` *after* entry `c` has already registered the same DOI — the first
run keeps both `a` and `c`, and only the second run detects them as
duplicates and merges them, so tidying the output again changes it. -/
theorem c9_not_idempotent :
    (tidy cfg9 noTable in9).1
        = "@m\x7ba,\n  title         = \x7bt\x7d,\n  author        = \x7bx\x7d,\n"
          ++ "  doi           = \x7bd\x7d\n\x7d\n@m\x7bc,\n  doi           = \x7bd\x7d\n\x7d\n"
      ∧ (tidy cfg9 noTable (tidy cfg9 noTable in9).1).1
        = "@m\x7ba,\n  title         = \x7bt\x7d,\n  author        = \x7bx\x7d,\n"
          ++ "  doi           = \x7bd\x7d\n\x7d\n"
      ∧ (tidy cfg9 noTable (tidy cfg9 noTable in9).1).1 ≠ (tidy cfg9 noTable in9).1 := by
  refine ⟨by decide, by decide, by decide⟩

end BibTidy
